import Mathlib

set_option maxRecDepth 100000

/-!
Verification of the grouping application (src/app.py).

The backend logic of the app is embedded shallowly:

* `generate_participant_list` — builds the roster from per-company counts
  (ids 1.., company labels by input position; labels are modelled as the
  company's 0-based index instead of the letter chr(ord('A')+i)).
* `Tracker` — the co-occurrence dictionary `existing_pairs` /
  `co_occurrence`, as an association list keyed by canonical id pairs.
* `create_day_grouping` — one day's assignment: capacity split, 100
  randomized greedy trials, trial scoring and best-of selection.
  The stream of permutations drawn by `random.sample` is an explicit
  argument `rand : Nat → List Participant` (trial index ↦ drawn order).
* `generate_all_days` — the multi-day loop threading the tracker.
  `st.error(f"{day+1}日目…") ; return None, None` is modelled as
  `Except.error (day + 1)`: the failure signal carries the 1-based day
  index shown to the user, and no partial plan.
-/

structure Participant where
  id : Nat
  company : Nat
deriving DecidableEq, Repr

/-- Inner loop of the roster builder: remaining counts, next id to hand out,
current company label. -/
def roster_blocks : List Nat → Nat → Nat → List Participant
  | [], _, _ => []
  | num :: rest, next_id, letter =>
    ((List.range num).map (fun j => { id := next_id + j, company := letter }))
      ++ roster_blocks rest (next_id + num) (letter + 1)

/-- The participants list built from per-company counts: ids count up from 1
in roster order, all participants of the i-th company share label i. -/
def generate_participant_list (company_participants : List Nat) : List Participant :=
  roster_blocks company_participants 1 0

/-- The co-occurrence dictionary: an association list from canonical id
pairs to counts, mirroring the Python dict `existing_pairs`. -/
abbrev Tracker := List ((Nat × Nat) × Nat)

/-- Dictionary read with default 0: `existing_pairs.get(pair, 0)`. -/
def Tracker.get : Tracker → Nat × Nat → Nat
  | [], _ => 0
  | (k, v) :: t, key => if k = key then v else Tracker.get t key

/-- Dictionary update `co_occurrence[pair] = co_occurrence.get(pair, 0) + 1`. -/
def Tracker.incr : Tracker → Nat × Nat → Tracker
  | [], key => [(key, 1)]
  | (k, v) :: t, key => if k = key then (k, v + 1) :: t else (k, v) :: Tracker.incr t key

/-- Canonical key for an unordered id pair: `tuple(sorted((a, b)))`. -/
def pairKey (a b : Nat) : Nat × Nat :=
  if a ≤ b then (a, b) else (b, a)

/-- All unordered pairs of a list in iteration order: `combinations(l, 2)`. -/
def pairsList {α : Type} : List α → List (α × α)
  | [] => []
  | x :: xs => xs.map (fun y => (x, y)) ++ pairsList xs

/-- Per-group target sizes: `group_size + 1` for the first
`total % num_groups` positions, `group_size` for the rest (app.py line 49). -/
def group_capacities (total num_groups : Nat) : List Nat :=
  (List.range num_groups).map
    (fun i => if i < total % num_groups then total / num_groups + 1 else total / num_groups)

/-- Indices of groups still below capacity (app.py line 61). -/
def available_groups_indices (grouping : List (List Participant)) (caps : List Nat) : List Nat :=
  (List.range grouping.length).filter
    (fun i => decide ((grouping.getD i []).length < caps.getD i 0))

/-- Placement score of participant `p` against group `g` (app.py lines 72–75):
100 per same-company member plus the tracked co-occurrence with each member. -/
def placementScore (t : Tracker) (p : Participant) (g : List Participant) : Nat :=
  100 * (g.filter (fun m => decide (m.company = p.company))).length
    + (g.map (fun m => Tracker.get t (pairKey p.id m.id))).sum

/-- Comparison step of Python's `min` with `key=lambda x: x[0]`: the new
candidate replaces the best-so-far only when its key is strictly smaller. -/
def minStep (b y : Nat × Nat) : Nat × Nat :=
  if y.1 < b.1 then y else b

/-- Python's `min(l, key=lambda x: x[0])`: the first element with minimal
first component, `none` on the empty list. -/
def minByFirst : List (Nat × Nat) → Option (Nat × Nat)
  | [] => none
  | x :: xs => some (xs.foldl minStep x)

/-- One greedy placement step (app.py lines 61–80): fail if no group is below
capacity, otherwise append `p` to the eligible group of minimal score. -/
def assignOne (caps : List Nat) (t : Tracker) (grouping : List (List Participant))
    (p : Participant) : Option (List (List Participant)) :=
  match minByFirst ((available_groups_indices grouping caps).map
      (fun i => (placementScore t p (grouping.getD i []), i))) with
  | none => none
  | some si => some (grouping.set si.2 (grouping.getD si.2 [] ++ [p]))

/-- Greedy placement of a drawn participant order into `grouping`. -/
def runTrial (caps : List Nat) (t : Tracker) (grouping : List (List Participant)) :
    List Participant → Option (List (List Participant))
  | [] => some grouping
  | p :: ps =>
    match assignOne caps t grouping p with
    | none => none
    | some g2 => runTrial caps t g2 ps

/-- One trial (app.py lines 56–80): start from `num_groups` empty groups and
place the drawn order `perm` greedily. -/
def trial (caps : List Nat) (num_groups : Nat) (t : Tracker)
    (perm : List Participant) : Option (List (List Participant)) :=
  runTrial caps t (List.replicate num_groups []) perm

/-- Company-duplication part of the trial score (app.py lines 87–88):
`sum(count - 1 for count in Counter(companies).values() if count > 1) * 100`. -/
def groupCompanyScore (g : List Participant) : Nat :=
  (((((g.map (fun p => p.company)).dedup).map
      (fun c => (g.map (fun p => p.company)).count c)).filter
    (fun n => decide (1 < n))).map (fun n => n - 1)).sum * 100

/-- Repeat-pairing part of the trial score (app.py lines 90–92). -/
def groupPairScore (t : Tracker) (g : List Participant) : Nat :=
  ((pairsList g).map (fun pr => Tracker.get t (pairKey pr.1.id pr.2.id))).sum

/-- Overall score of a completed trial (app.py lines 84–92). -/
def overallScore (t : Tracker) (grouping : List (List Participant)) : Nat :=
  (grouping.map (fun g => groupCompanyScore g + groupPairScore t g)).sum

/-- Best-of-trials accumulator step (app.py lines 82–96): keep the new
grouping only when its overall score is strictly below the best so far
(`none` plays float('inf')). -/
def bestStep (caps : List Nat) (num_groups : Nat) (t : Tracker)
    (acc : Option (List (List Participant)) × Option Nat) (perm : List Participant) :
    Option (List (List Participant)) × Option Nat :=
  match trial caps num_groups t perm with
  | none => acc
  | some g =>
    match acc.2 with
    | none => (some g, some (overallScore t g))
    | some m => if overallScore t g < m then (some g, some (overallScore t g)) else acc

/-- Fold of `bestStep` over a list of drawn permutations. -/
def runTrials (caps : List Nat) (num_groups : Nat) (t : Tracker)
    (perms : List (List Participant)) :
    Option (List (List Participant)) × Option Nat :=
  perms.foldl (bestStep caps num_groups t) (none, none)

/-- Trial budget of the day assigner (app.py line 55). -/
def numTrials : Nat := 100

/-- One day's grouping (app.py lines 36–98). `rand i` is the permutation
drawn by `random.sample` in trial `i`. Returns `some []` on an empty
participant list (Python returns `[]`), `none` when no trial succeeds
(Python returns `None`), otherwise the best grouping found. -/
def create_day_grouping (participants : List Participant) (num_groups : Nat)
    (existing_pairs : Tracker) (rand : Nat → List Participant) :
    Option (List (List Participant)) :=
  if participants.isEmpty then some []
  else
    (runTrials (group_capacities participants.length num_groups) num_groups existing_pairs
      ((List.range numTrials).map rand)).1

/-- Record one finalized group into the tracker (app.py lines 114–117):
increment every unordered member pair once. -/
def record_group (t : Tracker) (g : List Participant) : Tracker :=
  (pairsList g).foldl (fun acc pr => Tracker.incr acc (pairKey pr.1.id pr.2.id)) t

/-- Record every group of a finalized day plan. -/
def record_day (t : Tracker) (grouping : List (List Participant)) : Tracker :=
  grouping.foldl record_group t

/-- The multi-day loop body (app.py lines 105–117): `d` days remaining,
`day` the 0-based current day, `acc` the plans so far, `t` the tracker. -/
def generate_days_loop (participants : List Participant) (num_groups : Nat)
    (rand : Nat → Nat → List Participant) :
    Nat → Nat → List (List (List Participant)) → Tracker →
    Except Nat (List (List (List Participant)) × Tracker)
  | 0, _, acc, t => Except.ok (acc, t)
  | d + 1, day, acc, t =>
    match create_day_grouping participants num_groups t (rand day) with
    | none => Except.error (day + 1)
    | some g =>
      if g.isEmpty then Except.error (day + 1)
      else generate_days_loop participants num_groups rand d (day + 1) (acc ++ [g]) (record_day t g)

/-- The multi-day planner (app.py lines 100–119). On the first day whose
grouping is falsy (None or []), returns `Except.error (day + 1)` — the
1-based day index surfaced by `st.error` — and no plans. -/
def generate_all_days (participants : List Participant) (num_days num_groups : Nat)
    (rand : Nat → Nat → List Participant) :
    Except Nat (List (List (List Participant)) × Tracker) :=
  generate_days_loop participants num_groups rand num_days 0 [] []

/-- Total of all counts stored in the tracker. -/
def Tracker.sumValues (t : Tracker) : Nat :=
  (t.map (fun e => e.2)).sum

example : generate_participant_list [2, 1] =
    [⟨1, 0⟩, ⟨2, 0⟩, ⟨3, 1⟩] := by decide

example : group_capacities 5 2 = [3, 2] := by decide

example : create_day_grouping [⟨1, 0⟩, ⟨2, 0⟩] 1 [] (fun _ => [⟨1, 0⟩, ⟨2, 0⟩]) =
    some [[⟨1, 0⟩, ⟨2, 0⟩]] := by decide

/-! ### Tracker lemmas -/

theorem Tracker.get_incr_self (t : Tracker) (k : Nat × Nat) :
    (t.incr k).get k = t.get k + 1 := by
  induction t with
  | nil => simp [Tracker.incr, Tracker.get]
  | cons e t ih =>
    by_cases h : e.1 = k
    · simp [Tracker.incr, Tracker.get, h]
    · simp [Tracker.incr, Tracker.get, h, ih]

theorem Tracker.get_incr_ne (t : Tracker) (k k2 : Nat × Nat) (h : k2 ≠ k) :
    (t.incr k).get k2 = t.get k2 := by
  induction t with
  | nil =>
    have hk : k ≠ k2 := Ne.symm h
    simp [Tracker.incr, Tracker.get, hk]
  | cons e t ih =>
    by_cases he : e.1 = k
    · have hk : k ≠ k2 := Ne.symm h
      simp [Tracker.incr, Tracker.get, he, hk]
    · by_cases he2 : e.1 = k2
      · simp [Tracker.incr, Tracker.get, he, he2, h]
      · simp [Tracker.incr, Tracker.get, he, he2, ih]

theorem Tracker.get_incr_le (t : Tracker) (k k2 : Nat × Nat) :
    t.get k2 ≤ (t.incr k).get k2 := by
  by_cases h : k2 = k
  · subst h
    rw [Tracker.get_incr_self]
    omega
  · rw [Tracker.get_incr_ne t k k2 h]

theorem Tracker.sumValues_incr (t : Tracker) (k : Nat × Nat) :
    (t.incr k).sumValues = t.sumValues + 1 := by
  induction t with
  | nil => simp [Tracker.incr, Tracker.sumValues]
  | cons e t ih =>
    by_cases h : e.1 = k
    · simp [Tracker.incr, Tracker.sumValues, h]
      omega
    · simp only [Tracker.incr, h, if_false]
      simp only [Tracker.sumValues, List.map_cons, List.sum_cons] at ih ⊢
      omega

/-! ### pairKey lemmas -/

theorem pairKey_comm (a b : Nat) : pairKey a b = pairKey b a := by
  unfold pairKey
  by_cases h1 : a ≤ b <;> by_cases h2 : b ≤ a <;>
    simp only [h1, h2, if_true, if_false, Prod.ext_iff] <;> omega

theorem pairKey_of_le {a b : Nat} (h : a ≤ b) : pairKey a b = (a, b) := by
  simp [pairKey, h]

theorem pairKey_eq_iff (a b c d : Nat) :
    pairKey a b = pairKey c d ↔ (a = c ∧ b = d) ∨ (a = d ∧ b = c) := by
  unfold pairKey
  by_cases h1 : a ≤ b <;> by_cases h2 : c ≤ d <;>
    simp [h1, h2, Prod.ext_iff] <;> omega

/-! ### pairsList lemmas -/

theorem pairsList_length {α : Type} (l : List α) :
    (pairsList l).length = l.length.choose 2 := by
  induction l with
  | nil => simp [pairsList]
  | cons x xs ih =>
    simp [pairsList, ih, Nat.choose]

theorem mem_pairsList {α : Type} {l : List α} {pr : α × α} (h : pr ∈ pairsList l) :
    pr.1 ∈ l ∧ pr.2 ∈ l := by
  induction l with
  | nil => simp [pairsList] at h
  | cons x xs ih =>
    simp only [pairsList, List.mem_append, List.mem_map] at h
    rcases h with ⟨y, hy, he⟩ | h
    · subst he
      exact ⟨List.mem_cons_self _ _, List.mem_cons_of_mem _ hy⟩
    · exact ⟨List.mem_cons_of_mem _ (ih h).1, List.mem_cons_of_mem _ (ih h).2⟩

/-! ### Capacity lemmas -/

theorem group_capacities_length (total num_groups : Nat) :
    (group_capacities total num_groups).length = num_groups := by
  simp [group_capacities]

theorem sum_map_range_if (n r b : Nat) :
    (((List.range n).map (fun i => if i < r then b + 1 else b)).sum) = n * b + min r n := by
  induction n with
  | zero => simp
  | succ n ih =>
    rw [List.range_succ, List.map_append, List.sum_append]
    simp only [List.map_cons, List.map_nil, List.sum_cons, List.sum_nil, ih]
    rw [Nat.succ_mul]
    by_cases h : n < r <;> simp only [h, if_true, if_false] <;> omega

theorem group_capacities_sum (total num_groups : Nat) (h : 0 < num_groups) :
    (group_capacities total num_groups).sum = total := by
  unfold group_capacities
  rw [sum_map_range_if]
  have hmod : total % num_groups < num_groups := Nat.mod_lt _ h
  have hdm := Nat.div_add_mod total num_groups
  have : min (total % num_groups) num_groups = total % num_groups := by omega
  rw [this]
  omega

theorem group_capacities_getD (total num_groups i : Nat) (h : i < num_groups) :
    (group_capacities total num_groups).getD i 0 =
      if i < total % num_groups then total / num_groups + 1 else total / num_groups := by
  unfold group_capacities
  rw [List.getD_eq_getElem?_getD, List.getElem?_map, List.getElem?_range h]
  rfl

/-! ### List access helper lemmas -/

theorem getD_set_self {α : Type} (l : List α) (i : Nat) (v d : α) (hi : i < l.length) :
    (l.set i v).getD i d = v := by
  have h2 : i < (l.set i v).length := by simpa using hi
  rw [List.getD_eq_getElem _ _ h2, List.getElem_set_self]

theorem getD_set_ne {α : Type} (l : List α) (i j : Nat) (v d : α) (h : i ≠ j) :
    (l.set i v).getD j d = l.getD j d := by
  by_cases hj : j < l.length
  · have h2 : j < (l.set i v).length := by simpa using hj
    rw [List.getD_eq_getElem _ _ h2, List.getD_eq_getElem _ _ hj, List.getElem_set_ne h]
  · have h2 : (l.set i v).length ≤ j := by
      simp only [List.length_set]
      omega
    rw [List.getD_eq_getElem?_getD, List.getD_eq_getElem?_getD,
      List.getElem?_eq_none h2, List.getElem?_eq_none (Nat.le_of_not_lt hj)]

theorem getD_map_length (grouping : List (List Participant)) (i : Nat)
    (hi : i < grouping.length) :
    (grouping.map (fun g => g.length)).getD i 0 = (grouping.getD i []).length := by
  have h2 : i < (grouping.map (fun g => g.length)).length := by simpa using hi
  rw [List.getD_eq_getElem _ _ h2, List.getD_eq_getElem _ _ hi, List.getElem_map]

theorem sum_le_of_pointwise : ∀ (l1 l2 : List Nat), l1.length = l2.length →
    (∀ i, i < l1.length → l1.getD i 0 ≤ l2.getD i 0) → l1.sum ≤ l2.sum := by
  intro l1
  induction l1 with
  | nil => intro l2 _ _; simp
  | cons a l1 ih =>
    intro l2 hlen hle
    match l2 with
    | [] => simp at hlen
    | b :: l2 =>
      have h0 := hle 0 (by simp)
      simp only [List.getD_cons_zero] at h0
      have ht := ih l2 (by simpa using hlen) (fun i hi => by
        have := hle (i + 1) (by simpa using Nat.succ_lt_succ hi)
        simpa using this)
      simp only [List.sum_cons]
      omega

theorem eq_of_pointwise_le_of_sum_eq : ∀ (l1 l2 : List Nat), l1.length = l2.length →
    (∀ i, i < l1.length → l1.getD i 0 ≤ l2.getD i 0) → l1.sum = l2.sum → l1 = l2 := by
  intro l1
  induction l1 with
  | nil =>
    intro l2 hlen _ _
    exact (List.length_eq_zero.mp hlen.symm).symm
  | cons a l1 ih =>
    intro l2 hlen hle hsum
    match l2 with
    | [] => simp at hlen
    | b :: l2 =>
      have h0 := hle 0 (by simp)
      simp only [List.getD_cons_zero] at h0
      have hlen2 : l1.length = l2.length := by simpa using hlen
      have hle2 : ∀ i, i < l1.length → l1.getD i 0 ≤ l2.getD i 0 := fun i hi => by
        have := hle (i + 1) (by simpa using Nat.succ_lt_succ hi)
        simpa using this
      have hsle := sum_le_of_pointwise l1 l2 hlen2 hle2
      simp only [List.sum_cons] at hsum
      have hab : a = b := by omega
      have htl : l1.sum = l2.sum := by omega
      rw [hab, ih l2 hlen2 hle2 htl]

/-! ### Recording lemmas -/

/-- Canonical keys of the unordered member pairs of a group, in order. -/
def pairKeys (g : List Participant) : List (Nat × Nat) :=
  (pairsList g).map (fun pr => pairKey pr.1.id pr.2.id)

theorem record_group_eq_foldl (t : Tracker) (g : List Participant) :
    record_group t g = (pairKeys g).foldl Tracker.incr t := by
  unfold record_group pairKeys
  rw [List.foldl_map]

theorem get_foldl_incr (keys : List (Nat × Nat)) (t : Tracker) (k : Nat × Nat) :
    (keys.foldl Tracker.incr t).get k = t.get k + keys.count k := by
  induction keys generalizing t with
  | nil => simp
  | cons k2 ks ih =>
    rw [List.foldl_cons, ih]
    by_cases h : k2 = k
    · subst h
      rw [Tracker.get_incr_self]
      simp [List.count_cons]
      omega
    · rw [Tracker.get_incr_ne t k2 k (Ne.symm h)]
      simp [List.count_cons, h]

theorem sumValues_foldl_incr (keys : List (Nat × Nat)) (t : Tracker) :
    (keys.foldl Tracker.incr t).sumValues = t.sumValues + keys.length := by
  induction keys generalizing t with
  | nil => simp
  | cons k ks ih =>
    rw [List.foldl_cons, ih, Tracker.sumValues_incr, List.length_cons]
    omega

theorem record_group_sumValues (t : Tracker) (g : List Participant) :
    (record_group t g).sumValues = t.sumValues + g.length.choose 2 := by
  rw [record_group_eq_foldl, sumValues_foldl_incr]
  unfold pairKeys
  rw [List.length_map, pairsList_length]

theorem record_group_get (t : Tracker) (g : List Participant) (k : Nat × Nat) :
    (record_group t g).get k = t.get k + (pairKeys g).count k := by
  rw [record_group_eq_foldl, get_foldl_incr]

theorem record_group_get_le (t : Tracker) (g : List Participant) (k : Nat × Nat) :
    t.get k ≤ (record_group t g).get k := by
  rw [record_group_get]
  omega

theorem record_day_sumValues (t : Tracker) (grouping : List (List Participant)) :
    (record_day t grouping).sumValues =
      t.sumValues + (grouping.map (fun g => g.length.choose 2)).sum := by
  unfold record_day
  induction grouping generalizing t with
  | nil => simp
  | cons g gs ih =>
    rw [List.foldl_cons, ih, record_group_sumValues]
    simp
    omega

theorem record_day_get_le (t : Tracker) (grouping : List (List Participant)) (k : Nat × Nat) :
    t.get k ≤ (record_day t grouping).get k := by
  unfold record_day
  induction grouping generalizing t with
  | nil => exact Nat.le_refl _
  | cons g gs ih =>
    rw [List.foldl_cons]
    exact Nat.le_trans (record_group_get_le t g k) (ih (record_group t g))

/-- Counting a head-based pair key in the head's mapped keys: hits exactly
the one entry for `y` when ids are distinct. -/
theorem count_pairKey_map (x y : Participant) (xs : List Participant)
    (hxid : ∀ z ∈ xs, z.id ≠ x.id) (hy : y ∈ xs)
    (hnd2 : (xs.map Participant.id).Nodup) :
    (xs.map (fun y2 => pairKey x.id y2.id)).count (pairKey x.id y.id) = 1 := by
  rw [List.count_eq_countP, List.countP_map]
  have h : List.countP ((fun k => k == pairKey x.id y.id) ∘ (fun y2 => pairKey x.id y2.id)) xs
      = List.countP (fun z => z.id == y.id) xs := by
    apply List.countP_congr
    intro z hz
    simp only [Function.comp_apply, beq_iff_eq]
    rw [pairKey_eq_iff]
    constructor
    · rintro (⟨-, h2⟩ | ⟨h1, -⟩)
      · exact h2
      · exact absurd h1.symm (hxid y hy)
    · intro h2
      exact Or.inl ⟨rfl, h2⟩
  rw [h]
  have h2 : List.countP (fun z : Participant => z.id == y.id) xs
      = (xs.map Participant.id).count y.id := by
    rw [List.count_eq_countP, List.countP_map]
    rfl
  rw [h2]
  exact List.count_eq_one_of_mem hnd2 (List.mem_map_of_mem _ hy)

/-- Within a group whose member ids are distinct, the canonical key of a
listed member pair occurs exactly once among the group's pair keys. -/
theorem pairKeys_count_eq_one {g : List Participant} {pr : Participant × Participant}
    (hnd : (g.map Participant.id).Nodup) (hpr : pr ∈ pairsList g) :
    (pairKeys g).count (pairKey pr.1.id pr.2.id) = 1 := by
  induction g with
  | nil => simp [pairsList] at hpr
  | cons x xs ih =>
    simp only [List.map_cons, List.nodup_cons, List.mem_map] at hnd
    obtain ⟨hx, hnd2⟩ := hnd
    have hxid : ∀ z ∈ xs, z.id ≠ x.id := by
      intro z hz he
      exact hx ⟨z, hz, he⟩
    have hkeys : pairKeys (x :: xs) =
        (xs.map (fun y => pairKey x.id y.id)) ++ pairKeys xs := by
      unfold pairKeys
      simp [pairsList, List.map_map, Function.comp]
    rw [hkeys, List.count_append]
    simp only [pairsList, List.mem_append, List.mem_map] at hpr
    rcases hpr with ⟨y, hy, he⟩ | hpr
    · subst he
      show (xs.map (fun y2 => pairKey x.id y2.id)).count (pairKey x.id y.id)
          + (pairKeys xs).count (pairKey x.id y.id) = 1
      rw [count_pairKey_map x y xs hxid hy hnd2]
      have h2 : (pairKeys xs).count (pairKey x.id y.id) = 0 := by
        rw [List.count_eq_zero]
        intro hmem
        unfold pairKeys at hmem
        obtain ⟨pr2, hpr2, he2⟩ := List.mem_map.mp hmem
        obtain ⟨hm1, hm2⟩ := mem_pairsList hpr2
        rcases (pairKey_eq_iff _ _ _ _).mp he2 with ⟨ha, -⟩ | ⟨-, hb⟩
        · exact hxid pr2.1 hm1 ha
        · exact hxid pr2.2 hm2 hb
      rw [h2]
    · have hin : pr.1 ∈ xs ∧ pr.2 ∈ xs := mem_pairsList hpr
      have h1 : (xs.map (fun y2 => pairKey x.id y2.id)).count (pairKey pr.1.id pr.2.id) = 0 := by
        rw [List.count_eq_zero]
        intro hmem
        obtain ⟨z, hz, he2⟩ := List.mem_map.mp hmem
        rcases (pairKey_eq_iff _ _ _ _).mp he2 with ⟨ha, -⟩ | ⟨ha, -⟩
        · exact hxid pr.1 hin.1 ha.symm
        · exact hxid pr.2 hin.2 ha.symm
      rw [h1, ih hnd2 hpr]

theorem group_capacities_antitone (total num_groups i j : Nat)
    (hij : i ≤ j) (hj : j < num_groups) :
    (group_capacities total num_groups).getD j 0 ≤ (group_capacities total num_groups).getD i 0 := by
  rw [group_capacities_getD total num_groups i (Nat.lt_of_le_of_lt hij hj),
    group_capacities_getD total num_groups j hj]
  by_cases h1 : i < total % num_groups <;> by_cases h2 : j < total % num_groups <;>
    simp [h1, h2] <;> omega

/-! ### Minimum selection lemmas -/

theorem foldlMin_spec (xs : List (Nat × Nat)) : ∀ x : Nat × Nat,
    (List.foldl minStep x xs = x ∧ ∀ y ∈ xs, x.1 ≤ y.1)
    ∨ (∃ k, ∃ hk : k < xs.length,
        List.foldl minStep x xs = xs.get ⟨k, hk⟩ ∧
        (List.foldl minStep x xs).1 < x.1 ∧
        (∀ m, ∀ hm : m < xs.length, m < k →
          (List.foldl minStep x xs).1 < (xs.get ⟨m, hm⟩).1) ∧
        (∀ m, ∀ hm : m < xs.length,
          (List.foldl minStep x xs).1 ≤ (xs.get ⟨m, hm⟩).1)) := by
  induction xs with
  | nil =>
    intro x
    left
    exact ⟨rfl, by simp⟩
  | cons y ys ih =>
    intro x
    rw [List.foldl_cons]
    rcases ih (minStep x y) with ⟨heq, hall⟩ | ⟨k, hk, heq, hlt, hbefore, hle⟩
    · by_cases hy : y.1 < x.1
      · have hxy : minStep x y = y := by simp [minStep, hy]
        rw [hxy] at heq hall ⊢
        right
        refine ⟨0, by simp, ?_, ?_, ?_, ?_⟩
        · exact heq
        · rw [heq]
          exact hy
        · intro m hm hm0
          omega
        · intro m hm
          rw [heq]
          match m with
          | 0 => exact Nat.le_refl _
          | m + 1 => exact hall _ (ys.get_mem m (Nat.lt_of_succ_lt_succ hm))
      · have hxy : minStep x y = x := by simp [minStep, hy]
        rw [hxy] at heq hall ⊢
        left
        refine ⟨heq, ?_⟩
        intro z hz
        rcases List.mem_cons.mp hz with h | h
        · subst h
          exact Nat.le_of_not_lt hy
        · exact hall z h
    · right
      have hstep : (minStep x y).1 ≤ x.1 ∧ (minStep x y).1 ≤ y.1 := by
        unfold minStep
        by_cases hy : y.1 < x.1 <;> simp [hy] <;> omega
      refine ⟨k + 1, Nat.succ_lt_succ hk, ?_, ?_, ?_, ?_⟩
      · exact heq
      · exact Nat.lt_of_lt_of_le hlt hstep.1
      · intro m hm hmk
        match m with
        | 0 => exact Nat.lt_of_lt_of_le hlt hstep.2
        | m + 1 => exact hbefore m (Nat.lt_of_succ_lt_succ hm) (Nat.lt_of_succ_lt_succ hmk)
      · intro m hm
        match m with
        | 0 => exact Nat.le_of_lt (Nat.lt_of_lt_of_le hlt hstep.2)
        | m + 1 => exact hle m (Nat.lt_of_succ_lt_succ hm)

theorem minByFirst_spec {l : List (Nat × Nat)} {b : Nat × Nat}
    (h : minByFirst l = some b) :
    ∃ k, ∃ hk : k < l.length, l.get ⟨k, hk⟩ = b ∧
      (∀ m, ∀ hm : m < l.length, m < k → b.1 < (l.get ⟨m, hm⟩).1) ∧
      (∀ m, ∀ hm : m < l.length, b.1 ≤ (l.get ⟨m, hm⟩).1) := by
  match l with
  | [] => simp [minByFirst] at h
  | x :: xs =>
    have hb : xs.foldl minStep x = b := by
      simpa [minByFirst] using h
    rcases foldlMin_spec xs x with ⟨heq, hall⟩ | ⟨k, hk, heq, hlt, hbefore, hle⟩
    · rw [heq] at hb
      refine ⟨0, by simp, ?_, ?_, ?_⟩
      · exact hb
      · intro m hm hm0
        omega
      · intro m hm
        rw [← hb]
        match m with
        | 0 => exact Nat.le_refl _
        | m + 1 => exact hall _ (xs.get_mem m (Nat.lt_of_succ_lt_succ hm))
    · rw [hb] at heq hlt hbefore hle
      refine ⟨k + 1, Nat.succ_lt_succ hk, ?_, ?_, ?_⟩
      · exact heq.symm
      · intro m hm hmk
        match m with
        | 0 => exact hlt
        | m + 1 => exact hbefore m (Nat.lt_of_succ_lt_succ hm) (Nat.lt_of_succ_lt_succ hmk)
      · intro m hm
        match m with
        | 0 => exact Nat.le_of_lt hlt
        | m + 1 => exact hle m (Nat.lt_of_succ_lt_succ hm)

/-! ### Eligible-group lemmas -/

theorem mem_available_iff (grouping : List (List Participant)) (caps : List Nat) (i : Nat) :
    i ∈ available_groups_indices grouping caps ↔
      i < grouping.length ∧ (grouping.getD i []).length < caps.getD i 0 := by
  simp [available_groups_indices, List.mem_filter, List.mem_range]

theorem available_pairwise (grouping : List (List Participant)) (caps : List Nat) :
    (available_groups_indices grouping caps).Pairwise (· < ·) :=
  List.Pairwise.sublist (List.filter_sublist _) (List.pairwise_lt_range _)

theorem assignOne_eq_none_iff (caps : List Nat) (t : Tracker)
    (grouping : List (List Participant)) (p : Participant) :
    assignOne caps t grouping p = none ↔ available_groups_indices grouping caps = [] := by
  unfold assignOne
  cases h : available_groups_indices grouping caps with
  | nil => simp [minByFirst]
  | cons a as => simp [minByFirst]

theorem assignOne_eq_of_min (caps : List Nat) (t : Tracker)
    (grouping : List (List Participant)) (p : Participant) (b : Nat × Nat)
    (hb : minByFirst ((available_groups_indices grouping caps).map
        (fun i => (placementScore t p (grouping.getD i []), i))) = some b) :
    assignOne caps t grouping p = some (grouping.set b.2 (grouping.getD b.2 [] ++ [p])) := by
  unfold assignOne
  rw [hb]

/-- The greedy step places `p` into an eligible group of minimal placement
score, breaking ties towards the smallest group index. -/
theorem assignOne_spec (caps : List Nat) (t : Tracker)
    (grouping : List (List Participant)) (p : Participant)
    (h : available_groups_indices grouping caps ≠ []) :
    ∃ i, i ∈ available_groups_indices grouping caps ∧
      assignOne caps t grouping p = some (grouping.set i (grouping.getD i [] ++ [p])) ∧
      (∀ j ∈ available_groups_indices grouping caps,
        placementScore t p (grouping.getD i []) ≤ placementScore t p (grouping.getD j [])) ∧
      (∀ j ∈ available_groups_indices grouping caps, j < i →
        placementScore t p (grouping.getD i []) < placementScore t p (grouping.getD j [])) := by
  obtain ⟨b, hbmin⟩ : ∃ b, minByFirst ((available_groups_indices grouping caps).map
      (fun i => (placementScore t p (grouping.getD i []), i))) = some b := by
    cases hm : (available_groups_indices grouping caps).map
        (fun i => (placementScore t p (grouping.getD i []), i)) with
    | nil => exact absurd (List.map_eq_nil_iff.mp hm) h
    | cons x xs => exact ⟨_, rfl⟩
  obtain ⟨k, hk, hgetb, hbefore, hle⟩ := minByFirst_spec hbmin
  have hklen : k < (available_groups_indices grouping caps).length := by
    simpa using hk
  have hbval : b = (placementScore t p
      (grouping.getD ((available_groups_indices grouping caps).get ⟨k, hklen⟩) []),
      (available_groups_indices grouping caps).get ⟨k, hklen⟩) := by
    rw [← hgetb, List.get_eq_getElem, List.get_eq_getElem, List.getElem_map]
  refine ⟨(available_groups_indices grouping caps).get ⟨k, hklen⟩,
    List.get_mem _ k hklen, ?_, ?_, ?_⟩
  · have := assignOne_eq_of_min caps t grouping p b hbmin
    rw [hbval] at this
    exact this
  · intro j hj
    obtain ⟨⟨m, hm⟩, hgj⟩ := List.mem_iff_get.mp hj
    have hm2 : m < ((available_groups_indices grouping caps).map
        (fun i => (placementScore t p (grouping.getD i []), i))).length := by
      simpa using hm
    have hv := hle m hm2
    rw [List.get_eq_getElem, List.getElem_map] at hv
    rw [hbval] at hv
    simp only [List.get_eq_getElem] at hgj
    rw [hgj] at hv
    exact hv
  · intro j hj hlt
    obtain ⟨⟨m, hm⟩, hgj⟩ := List.mem_iff_get.mp hj
    have hmk : m < k := by
      rcases Nat.lt_trichotomy m k with hc | hc | hc
      · exact hc
      · exfalso
        have hfin : (⟨m, hm⟩ : Fin (available_groups_indices grouping caps).length)
            = ⟨k, hklen⟩ := Fin.ext hc
        rw [hfin] at hgj
        rw [← hgj] at hlt
        exact Nat.lt_irrefl _ hlt
      · exfalso
        have hpw := (List.pairwise_iff_getElem.mp (available_pairwise grouping caps))
          k m hklen hm hc
        simp only [List.get_eq_getElem] at hgj hlt
        rw [hgj] at hpw
        omega
    have hm2 : m < ((available_groups_indices grouping caps).map
        (fun i => (placementScore t p (grouping.getD i []), i))).length := by
      simpa using hm
    have hv := hbefore m hm2 hmk
    rw [List.get_eq_getElem, List.getElem_map] at hv
    rw [hbval] at hv
    simp only [List.get_eq_getElem] at hgj
    rw [hgj] at hv
    exact hv


/-! ### Placement step preserves the partition -/

theorem flatten_set_append (grouping : List (List Participant)) (i : Nat) (p : Participant)
    (hi : i < grouping.length) :
    List.Perm (grouping.set i (grouping.getD i [] ++ [p])).flatten
      (grouping.flatten ++ [p]) := by
  induction grouping generalizing i with
  | nil => simp at hi
  | cons g gs ih =>
    match i with
    | 0 =>
      simp only [List.getD_cons_zero, List.set_cons_zero, List.flatten_cons, List.append_assoc]
      exact List.Perm.append_left g List.perm_append_comm
    | i + 1 =>
      simp only [List.getD_cons_succ, List.set_cons_succ, List.flatten_cons, List.append_assoc]
      exact List.Perm.append_left g (ih i (Nat.lt_of_succ_lt_succ hi))

theorem runTrial_flatten_perm (caps : List Nat) (t : Tracker) :
    ∀ (ps : List Participant) (grouping g : List (List Participant)),
      runTrial caps t grouping ps = some g →
      List.Perm g.flatten (grouping.flatten ++ ps) := by
  intro ps
  induction ps with
  | nil =>
    intro grouping g h
    simp only [runTrial] at h
    cases h
    simp
  | cons p ps ih =>
    intro grouping g h
    unfold runTrial at h
    cases ha : assignOne caps t grouping p with
    | none => rw [ha] at h; cases h
    | some g2 =>
      rw [ha] at h
      have hav : available_groups_indices grouping caps ≠ [] := by
        intro hav
        rw [(assignOne_eq_none_iff caps t grouping p).mpr hav] at ha
        cases ha
      obtain ⟨i, himem, heq, -, -⟩ := assignOne_spec caps t grouping p hav
      rw [heq] at ha
      have hg2 : g2 = grouping.set i (grouping.getD i [] ++ [p]) := by
        cases ha
        rfl
      have hi : i < grouping.length := ((mem_available_iff grouping caps i).mp himem).1
      have hperm2 : List.Perm g2.flatten (grouping.flatten ++ [p]) := by
        rw [hg2]
        exact flatten_set_append grouping i p hi
      have h2 := ih g2 g h
      refine List.Perm.trans h2 ?_
      have h3 := List.Perm.append_right ps hperm2
      refine List.Perm.trans h3 ?_
      rw [List.append_assoc]
      exact List.Perm.refl _

/-! ### Trial size invariants -/

theorem runTrial_le_caps (caps : List Nat) (t : Tracker) :
    ∀ (ps : List Participant) (grouping g : List (List Participant)),
      (∀ i, i < grouping.length → (grouping.getD i []).length ≤ caps.getD i 0) →
      runTrial caps t grouping ps = some g →
      g.length = grouping.length ∧
        ∀ i, i < g.length → (g.getD i []).length ≤ caps.getD i 0 := by
  intro ps
  induction ps with
  | nil =>
    intro grouping g hle h
    simp only [runTrial] at h
    cases h
    exact ⟨rfl, hle⟩
  | cons p ps ih =>
    intro grouping g hle h
    unfold runTrial at h
    cases ha : assignOne caps t grouping p with
    | none => rw [ha] at h; cases h
    | some g2 =>
      rw [ha] at h
      have hav : available_groups_indices grouping caps ≠ [] := by
        intro hav
        rw [(assignOne_eq_none_iff caps t grouping p).mpr hav] at ha
        cases ha
      obtain ⟨i, himem, heq, -, -⟩ := assignOne_spec caps t grouping p hav
      rw [heq] at ha
      have hg2 : g2 = grouping.set i (grouping.getD i [] ++ [p]) := by
        cases ha
        rfl
      obtain ⟨hi, hroom⟩ := (mem_available_iff grouping caps i).mp himem
      have hle2 : ∀ j, j < g2.length → (g2.getD j []).length ≤ caps.getD j 0 := by
        intro j hj
        rw [hg2]
        by_cases hij : i = j
        · subst hij
          rw [getD_set_self grouping i _ [] hi]
          simp only [List.length_append, List.length_cons, List.length_nil]
          omega
        · rw [getD_set_ne grouping i j _ [] hij]
          apply hle
          rw [hg2] at hj
          simpa using hj
      have hlen2 : g2.length = grouping.length := by
        rw [hg2]
        simp
      obtain ⟨hl, hb⟩ := ih g2 g hle2 h
      exact ⟨hl.trans hlen2, hb⟩

/-! ### A trial always completes (capacity accounting) -/

theorem runTrial_total (caps : List Nat) (t : Tracker) :
    ∀ (ps : List Participant) (grouping : List (List Participant)),
      caps.length = grouping.length →
      (∀ i, i < grouping.length → (grouping.getD i []).length ≤ caps.getD i 0) →
      grouping.flatten.length + ps.length = caps.sum →
      ∃ g, runTrial caps t grouping ps = some g := by
  intro ps
  induction ps with
  | nil =>
    intro grouping _ _ _
    exact ⟨grouping, rfl⟩
  | cons p ps ih =>
    intro grouping hclen hle hsum
    have hav : available_groups_indices grouping caps ≠ [] := by
      intro hav
      have hfull : ∀ i, i < grouping.length → (grouping.getD i []).length = caps.getD i 0 := by
        intro i hi
        have hnot : i ∉ available_groups_indices grouping caps := by
          rw [hav]
          exact List.not_mem_nil i
        rw [mem_available_iff] at hnot
        push_neg at hnot
        exact Nat.le_antisymm (hle i hi) (hnot hi)
      have hmap : grouping.map (fun g => g.length) = caps := by
        apply List.ext_getElem
        · simp [hclen]
        · intro n h1 h2
          have hn : n < grouping.length := by simpa using h1
          have := hfull n hn
          rw [← getD_map_length grouping n hn] at this
          rw [← List.getD_eq_getElem _ 0 h1, ← List.getD_eq_getElem _ 0 h2]
          exact this
      have : grouping.flatten.length = caps.sum := by
        rw [List.length_flatten, hmap]
      simp only [List.length_cons] at hsum
      omega
    obtain ⟨i, himem, heq, -, -⟩ := assignOne_spec caps t grouping p hav
    obtain ⟨hi, hroom⟩ := (mem_available_iff grouping caps i).mp himem
    have hperm2 := flatten_set_append grouping i p hi
    have hle2 : ∀ j, j < (grouping.set i (grouping.getD i [] ++ [p])).length →
        ((grouping.set i (grouping.getD i [] ++ [p])).getD j []).length ≤ caps.getD j 0 := by
      intro j hj
      by_cases hij : i = j
      · subst hij
        rw [getD_set_self grouping i _ [] hi]
        simp only [List.length_append, List.length_cons, List.length_nil]
        omega
      · rw [getD_set_ne grouping i j _ [] hij]
        apply hle
        simpa using hj
    have hsum2 : (grouping.set i (grouping.getD i [] ++ [p])).flatten.length + ps.length
        = caps.sum := by
      have := List.Perm.length_eq hperm2
      simp only [List.length_append, List.length_cons, List.length_nil] at this
      simp only [List.length_cons] at hsum
      omega
    have hclen2 : caps.length = (grouping.set i (grouping.getD i [] ++ [p])).length := by
      simpa using hclen
    obtain ⟨g, hg⟩ := ih (grouping.set i (grouping.getD i [] ++ [p])) hclen2 hle2 hsum2
    refine ⟨g, ?_⟩
    unfold runTrial
    rw [heq]
    exact hg

/-! ### Best-of-trials selection -/

theorem bestStep_none (caps : List Nat) (G : Nat) (t : Tracker)
    (acc : Option (List (List Participant)) × Option Nat) (x : List Participant)
    (h : trial caps G t x = none) :
    bestStep caps G t acc x = acc := by
  unfold bestStep
  rw [h]

theorem bestStep_some_none (caps : List Nat) (G : Nat) (t : Tracker)
    (b : Option (List (List Participant))) (x : List Participant)
    (g : List (List Participant)) (h : trial caps G t x = some g) :
    bestStep caps G t (b, none) x = (some g, some (overallScore t g)) := by
  unfold bestStep
  rw [h]

theorem bestStep_some_some (caps : List Nat) (G : Nat) (t : Tracker)
    (b : Option (List (List Participant))) (m : Nat) (x : List Participant)
    (g : List (List Participant)) (h : trial caps G t x = some g) :
    bestStep caps G t (b, some m) x =
      if overallScore t g < m then (some g, some (overallScore t g)) else (b, some m) := by
  unfold bestStep
  rw [h]

theorem get_append_left_eq {α : Type} (l : List α) (x : α) (i : Nat) (hi : i < l.length)
    (hi2 : i < (l ++ [x]).length) : (l ++ [x]).get ⟨i, hi2⟩ = l.get ⟨i, hi⟩ := by
  rw [List.get_eq_getElem, List.get_eq_getElem]
  exact List.getElem_append_left hi

theorem get_append_last_eq {α : Type} (l : List α) (x : α)
    (hi : l.length < (l ++ [x]).length) : (l ++ [x]).get ⟨l.length, hi⟩ = x := by
  rw [List.get_eq_getElem]
  exact List.getElem_concat_length l x l.length rfl _

theorem runTrials_append_one (caps : List Nat) (G : Nat) (t : Tracker)
    (perms : List (List Participant)) (x : List Participant) :
    runTrials caps G t (perms ++ [x]) = bestStep caps G t (runTrials caps G t perms) x := by
  unfold runTrials
  rw [List.foldl_append]
  rfl

/-- Best-of-trials fold: either every trial fails and no grouping is kept, or
the kept grouping comes from the earliest trial attaining the minimum
overall score. -/
theorem runTrials_spec (caps : List Nat) (G : Nat) (t : Tracker) :
    ∀ perms : List (List Participant),
    (runTrials caps G t perms = (none, none) ∧
      ∀ i, ∀ hi : i < perms.length, trial caps G t (perms.get ⟨i, hi⟩) = none)
    ∨ (∃ g i, ∃ hi : i < perms.length,
        runTrials caps G t perms = (some g, some (overallScore t g)) ∧
        trial caps G t (perms.get ⟨i, hi⟩) = some g ∧
        (∀ j, ∀ hj : j < perms.length, ∀ g2,
          trial caps G t (perms.get ⟨j, hj⟩) = some g2 →
          overallScore t g ≤ overallScore t g2) ∧
        (∀ j, ∀ hj : j < perms.length, j < i → ∀ g2,
          trial caps G t (perms.get ⟨j, hj⟩) = some g2 →
          overallScore t g < overallScore t g2)) := by
  intro perms
  induction perms using List.reverseRecOn with
  | nil =>
    left
    refine ⟨rfl, ?_⟩
    intro i hi
    simp at hi
  | append_singleton perms x ih =>
    have hlen : (perms ++ [x]).length = perms.length + 1 := by simp
    rcases ih with ⟨hacc, hall⟩ | ⟨g, i, hi, hacc, htri, hle, hbefore⟩
    · cases htr : trial caps G t x with
      | none =>
        left
        constructor
        · rw [runTrials_append_one, hacc, bestStep_none caps G t _ x htr]
        · intro j hj
          by_cases hj2 : j < perms.length
          · rw [get_append_left_eq perms x j hj2 hj]
            exact hall j hj2
          · have hj3 : j = perms.length := by
              rw [hlen] at hj
              omega
            subst hj3
            rw [get_append_last_eq perms x hj]
            exact htr
      | some g =>
        right
        refine ⟨g, perms.length, by omega, ?_, ?_, ?_, ?_⟩
        · rw [runTrials_append_one, hacc, bestStep_some_none caps G t none x g htr]
        · rw [get_append_last_eq perms x (by omega)]
          exact htr
        · intro j hj g2 htr2
          by_cases hj2 : j < perms.length
          · rw [get_append_left_eq perms x j hj2 hj] at htr2
            rw [hall j hj2] at htr2
            cases htr2
          · have hj3 : j = perms.length := by
              rw [hlen] at hj
              omega
            subst hj3
            rw [get_append_last_eq perms x hj] at htr2
            rw [htr] at htr2
            cases htr2
            exact Nat.le_refl _
        · intro j hj hji g2 htr2
          have hj2 : j < perms.length := by omega
          rw [get_append_left_eq perms x j hj2 hj] at htr2
          rw [hall j hj2] at htr2
          cases htr2
    · cases htr : trial caps G t x with
      | none =>
        right
        refine ⟨g, i, by omega, ?_, ?_, ?_, ?_⟩
        · rw [runTrials_append_one, hacc, bestStep_none caps G t _ x htr]
        · rw [get_append_left_eq perms x i hi (by omega)]
          exact htri
        · intro j hj g2 htr2
          by_cases hj2 : j < perms.length
          · rw [get_append_left_eq perms x j hj2 hj] at htr2
            exact hle j hj2 g2 htr2
          · have hj3 : j = perms.length := by
              rw [hlen] at hj
              omega
            subst hj3
            rw [get_append_last_eq perms x hj] at htr2
            rw [htr] at htr2
            cases htr2
        · intro j hj hji g2 htr2
          have hj2 : j < perms.length := by omega
          rw [get_append_left_eq perms x j hj2 hj] at htr2
          exact hbefore j hj2 hji g2 htr2
      | some g2 =>
        by_cases hcmp : overallScore t g2 < overallScore t g
        · right
          refine ⟨g2, perms.length, by omega, ?_, ?_, ?_, ?_⟩
          · rw [runTrials_append_one, hacc,
              bestStep_some_some caps G t (some g) (overallScore t g) x g2 htr, if_pos hcmp]
          · rw [get_append_last_eq perms x (by omega)]
            exact htr
          · intro j hj g3 htr3
            by_cases hj2 : j < perms.length
            · rw [get_append_left_eq perms x j hj2 hj] at htr3
              have := hle j hj2 g3 htr3
              omega
            · have hj3 : j = perms.length := by
                rw [hlen] at hj
                omega
              subst hj3
              rw [get_append_last_eq perms x hj] at htr3
              rw [htr] at htr3
              cases htr3
              exact Nat.le_refl _
          · intro j hj hji g3 htr3
            have hj2 : j < perms.length := by omega
            rw [get_append_left_eq perms x j hj2 hj] at htr3
            have := hle j hj2 g3 htr3
            omega
        · right
          refine ⟨g, i, by omega, ?_, ?_, ?_, ?_⟩
          · rw [runTrials_append_one, hacc,
              bestStep_some_some caps G t (some g) (overallScore t g) x g2 htr, if_neg hcmp]
          · rw [get_append_left_eq perms x i hi (by omega)]
            exact htri
          · intro j hj g3 htr3
            by_cases hj2 : j < perms.length
            · rw [get_append_left_eq perms x j hj2 hj] at htr3
              exact hle j hj2 g3 htr3
            · have hj3 : j = perms.length := by
                rw [hlen] at hj
                omega
              subst hj3
              rw [get_append_last_eq perms x hj] at htr3
              rw [htr] at htr3
              cases htr3
              omega
          · intro j hj hji g3 htr3
            have hj2 : j < perms.length := by omega
            rw [get_append_left_eq perms x j hj2 hj] at htr3
            exact hbefore j hj2 hji g3 htr3

/-! ### Day assigner corollaries -/

theorem get_range_map {α : Type} (f : Nat → α) (n i : Nat)
    (hi : i < ((List.range n).map f).length) :
    ((List.range n).map f).get ⟨i, hi⟩ = f i := by
  rw [List.get_eq_getElem, List.getElem_map, List.getElem_range]

theorem length_range_map {α : Type} (f : Nat → α) (n : Nat) :
    ((List.range n).map f).length = n := by
  simp

theorem create_day_grouping_eq (participants : List Participant) (G : Nat) (t : Tracker)
    (rand : Nat → List Participant) (h : participants ≠ []) :
    create_day_grouping participants G t rand =
      (runTrials (group_capacities participants.length G) G t
        ((List.range numTrials).map rand)).1 := by
  unfold create_day_grouping
  rw [if_neg]
  simp [h]

/-- The day assigner fails exactly when all `numTrials` trials fail. -/
theorem create_day_none_iff (participants : List Participant) (G : Nat) (t : Tracker)
    (rand : Nat → List Participant) (hne : participants ≠ []) :
    create_day_grouping participants G t rand = none ↔
      ∀ i, i < numTrials →
        trial (group_capacities participants.length G) G t (rand i) = none := by
  rw [create_day_grouping_eq participants G t rand hne]
  rcases runTrials_spec (group_capacities participants.length G) G t
      ((List.range numTrials).map rand) with ⟨hacc, hall⟩ | ⟨g, i, hi, hacc, htri, -, -⟩
  · rw [hacc]
    simp only [true_iff]
    intro i hilt
    have hi2 : i < ((List.range numTrials).map rand).length := by
      rw [length_range_map]
      exact hilt
    have := hall i hi2
    rwa [get_range_map] at this
  · rw [hacc]
    constructor
    · intro hcontra
      simp at hcontra
    · intro hallfail
      exfalso
      have hilt : i < numTrials := by
        have := hi
        rw [length_range_map] at this
        exact this
      rw [get_range_map] at htri
      rw [hallfail i hilt] at htri
      cases htri

/-- A returned day plan comes from the earliest minimum-score successful
trial among the `numTrials` trials. -/
theorem create_day_some_spec (participants : List Participant) (G : Nat) (t : Tracker)
    (rand : Nat → List Participant) (plan : List (List Participant))
    (hne : participants ≠ [])
    (h : create_day_grouping participants G t rand = some plan) :
    ∃ i, i < numTrials ∧
      trial (group_capacities participants.length G) G t (rand i) = some plan ∧
      (∀ j, j < numTrials → ∀ g2,
        trial (group_capacities participants.length G) G t (rand j) = some g2 →
        overallScore t plan ≤ overallScore t g2) ∧
      (∀ j, j < i → ∀ g2,
        trial (group_capacities participants.length G) G t (rand j) = some g2 →
        overallScore t plan < overallScore t g2) := by
  rw [create_day_grouping_eq participants G t rand hne] at h
  rcases runTrials_spec (group_capacities participants.length G) G t
      ((List.range numTrials).map rand) with ⟨hacc, hall⟩ | ⟨g, i, hi, hacc, htri, hle, hbefore⟩
  · rw [hacc] at h
    cases h
  · rw [hacc] at h
    cases h
    have hilt : i < numTrials := by
      have := hi
      rwa [length_range_map] at this
    rw [get_range_map] at htri
    refine ⟨i, hilt, htri, ?_, ?_⟩
    · intro j hjlt g2 htr2
      have hj2 : j < ((List.range numTrials).map rand).length := by
        rw [length_range_map]
        exact hjlt
      refine hle j hj2 g2 ?_
      rwa [get_range_map]
    · intro j hji g2 htr2
      have hjlt : j < numTrials := Nat.lt_trans hji hilt
      have hj2 : j < ((List.range numTrials).map rand).length := by
        rw [length_range_map]
        exact hjlt
      refine hbefore j hj2 hji g2 ?_
      rwa [get_range_map]

/-! ### Multi-day planner lemmas -/

/-- State of the multi-day loop before each day, when no earlier day has
failed: the finalized plans so far and the current tracker. -/
def planner_state (participants : List Participant) (num_groups : Nat)
    (rand : Nat → Nat → List Participant) :
    Nat → Option (List (List (List Participant)) × Tracker)
  | 0 => some ([], [])
  | k + 1 =>
    match planner_state participants num_groups rand k with
    | none => none
    | some (acc, t) =>
      match create_day_grouping participants num_groups t (rand k) with
      | none => none
      | some g => if g.isEmpty then none else some (acc ++ [g], record_day t g)

theorem generate_all_days_eq_loop (participants : List Participant) (num_groups : Nat)
    (rand : Nat → Nat → List Participant) (n : Nat) :
    ∀ k acc t, k ≤ n →
      planner_state participants num_groups rand k = some (acc, t) →
      generate_all_days participants n num_groups rand =
        generate_days_loop participants num_groups rand (n - k) k acc t := by
  intro k
  induction k with
  | zero =>
    intro acc t _ hs
    simp only [planner_state, Option.some.injEq, Prod.mk.injEq] at hs
    rw [← hs.1, ← hs.2]
    rfl
  | succ k ih =>
    intro acc t hk hs
    simp only [planner_state] at hs
    split at hs
    · cases hs
    · rename_i acc2 t2 hsk
      split at hs
      · cases hs
      · rename_i g hc
        split at hs
        · cases hs
        · rename_i hg
          simp only [Option.some.injEq, Prod.mk.injEq] at hs
          have hd := ih acc2 t2 (Nat.le_of_succ_le hk) hsk
          rw [hd]
          have hnk : n - k = (n - (k + 1)) + 1 := by omega
          rw [hnk]
          simp only [generate_days_loop, hc]
          rw [if_neg hg, hs.1, hs.2]

/-- If a day's assignment comes back falsy (None or the empty list), the
planner surfaces the 1-based failing day index and no plans. -/
theorem generate_all_days_error (participants : List Participant) (num_groups : Nat)
    (rand : Nat → Nat → List Participant) (n k : Nat)
    (acc : List (List (List Participant))) (t : Tracker)
    (hk : k < n)
    (hs : planner_state participants num_groups rand k = some (acc, t))
    (hfail : create_day_grouping participants num_groups t (rand k) = none ∨
      create_day_grouping participants num_groups t (rand k) = some []) :
    generate_all_days participants n num_groups rand = Except.error (k + 1) := by
  rw [generate_all_days_eq_loop participants num_groups rand n k acc t
    (Nat.le_of_lt hk) hs]
  have hnk : n - k = (n - (k + 1)) + 1 := by omega
  rw [hnk]
  rcases hfail with hc | hc
  · simp only [generate_days_loop, hc]
  · simp only [generate_days_loop, hc]
    rfl

/-- A successful run extends the incoming plans and adds one increment per
unordered member pair of every recorded group. -/
theorem generate_days_loop_ok (participants : List Participant) (num_groups : Nat)
    (rand : Nat → Nat → List Participant) :
    ∀ (d day : Nat) (acc : List (List (List Participant))) (t : Tracker)
      (plans : List (List (List Participant))) (tF : Tracker),
      generate_days_loop participants num_groups rand d day acc t = Except.ok (plans, tF) →
      ∃ rest, plans = acc ++ rest ∧
        tF.sumValues = t.sumValues +
          (rest.map (fun dayplan => (dayplan.map (fun g => g.length.choose 2)).sum)).sum := by
  intro d
  induction d with
  | zero =>
    intro day acc t plans tF h
    simp only [generate_days_loop, Except.ok.injEq, Prod.mk.injEq] at h
    refine ⟨[], by rw [← h.1]; simp, ?_⟩
    rw [← h.2]
    simp
  | succ d ih =>
    intro day acc t plans tF h
    simp only [generate_days_loop] at h
    split at h
    · cases h
    · rename_i g hc
      split at h
      · cases h
      · rename_i hg
        obtain ⟨rest, hplans, hsum⟩ := ih (day + 1) (acc ++ [g]) (record_day t g) plans tF h
        refine ⟨g :: rest, ?_, ?_⟩
        · rw [hplans, List.append_assoc]
          rfl
        · rw [hsum, record_day_sumValues]
          simp only [List.map_cons, List.sum_cons]
          omega

theorem generate_all_days_sumValues (participants : List Participant)
    (num_days num_groups : Nat) (rand : Nat → Nat → List Participant)
    (plans : List (List (List Participant))) (tF : Tracker)
    (h : generate_all_days participants num_days num_groups rand = Except.ok (plans, tF)) :
    tF.sumValues =
      (plans.map (fun dayplan => (dayplan.map (fun g => g.length.choose 2)).sum)).sum := by
  obtain ⟨rest, hplans, hsum⟩ :=
    generate_days_loop_ok participants num_groups rand num_days 0 [] [] plans tF h
  simp only [List.nil_append] at hplans
  rw [hsum, hplans]
  simp [Tracker.sumValues]

/-! ### Helpers for the claim theorems -/

theorem flatten_replicate_nil {α : Type} (n : Nat) :
    (List.replicate n ([] : List α)).flatten = [] := by
  induction n with
  | zero => rfl
  | succ n ih => simp [List.replicate_succ, ih]

theorem getD_replicate_nil {α : Type} (n i : Nat) :
    (List.replicate n ([] : List α)).getD i [] = [] := by
  induction n generalizing i with
  | zero => rfl
  | succ n ih =>
    rw [List.replicate_succ]
    match i with
    | 0 => rfl
    | i + 1 =>
      rw [List.getD_cons_succ]
      exact ih i

/-- Every trial of the day assigner completes: initial capacities sum to the
participant count, so a below-capacity group always exists. -/
theorem trial_total (total G : Nat) (t : Tracker) (perm : List Participant)
    (hG : 0 < G) (hlen : perm.length = total) :
    ∃ g, trial (group_capacities total G) G t perm = some g := by
  unfold trial
  apply runTrial_total
  · rw [group_capacities_length]
    simp
  · intro i hi
    rw [getD_replicate_nil]
    exact Nat.zero_le _
  · rw [flatten_replicate_nil, group_capacities_sum total G hG]
    simpa using hlen

/-- A plan returned by the day assigner has exactly `G` groups whose sizes
are exactly the computed capacities. -/
theorem create_day_plan_sizes (participants : List Participant) (G : Nat) (t : Tracker)
    (rand : Nat → List Participant) (plan : List (List Participant))
    (hne : participants ≠ []) (hG : 0 < G)
    (hlen : ∀ i, i < numTrials → (rand i).length = participants.length)
    (h : create_day_grouping participants G t rand = some plan) :
    plan.length = G ∧
      plan.map (fun g => g.length) = group_capacities participants.length G := by
  obtain ⟨i, hilt, htri, -, -⟩ := create_day_some_spec participants G t rand plan hne h
  unfold trial at htri
  have hinit : ∀ j, j < (List.replicate G ([] : List Participant)).length →
      ((List.replicate G ([] : List Participant)).getD j []).length ≤
        (group_capacities participants.length G).getD j 0 := by
    intro j hj
    rw [getD_replicate_nil]
    exact Nat.zero_le _
  obtain ⟨hplen, hble⟩ := runTrial_le_caps (group_capacities participants.length G) t
    (rand i) (List.replicate G []) plan hinit htri
  have hplen2 : plan.length = G := by
    rw [hplen]
    simp
  have hflat := runTrial_flatten_perm (group_capacities participants.length G) t
    (rand i) (List.replicate G []) plan htri
  rw [flatten_replicate_nil] at hflat
  have hfl : plan.flatten.length = participants.length := by
    rw [List.Perm.length_eq hflat]
    simpa using hlen i hilt
  refine ⟨hplen2, ?_⟩
  apply eq_of_pointwise_le_of_sum_eq
  · rw [List.length_map, hplen2, group_capacities_length]
  · intro j hj
    have hj2 : j < plan.length := by simpa using hj
    rw [getD_map_length plan j hj2]
    exact hble j hj2
  · rw [← List.length_flatten, hfl, group_capacities_sum participants.length G hG]

theorem sum_map_sub_one_filter (l : List Nat) :
    (((l.filter (fun n => decide (1 < n))).map (fun n => n - 1)).sum)
      = ((l.map (fun n => n - 1)).sum) := by
  induction l with
  | nil => rfl
  | cons a l ih =>
    by_cases h : 1 < a
    · rw [List.filter_cons_of_pos (by simpa using h)]
      simp only [List.map_cons, List.sum_cons, ih]
    · rw [List.filter_cons_of_neg (by simpa using h)]
      have ha : a - 1 = 0 := by omega
      simp only [List.map_cons, List.sum_cons, ih, ha]
      omega

theorem sum_map_mul_hundred (l : List Nat) :
    (l.map (fun n => n - 1)).sum * 100 = (l.map (fun n => 100 * (n - 1))).sum := by
  induction l with
  | nil => rfl
  | cons a l ih =>
    simp only [List.map_cons, List.sum_cons, Nat.add_mul, ih]
    omega

theorem map_range_if_lt (N M : Nat) :
    (List.range (N + M)).map (fun i => if i < N then 1 else 0) =
      List.replicate N 1 ++ List.replicate M 0 := by
  rw [List.range_add, List.map_append, List.map_map]
  congr 1
  · rw [List.eq_replicate_iff]
    refine ⟨by simp, ?_⟩
    intro b hb
    obtain ⟨i, hi, he⟩ := List.mem_map.mp hb
    rw [List.mem_range] at hi
    rw [← he, if_pos hi]
  · rw [List.eq_replicate_iff]
    refine ⟨by simp, ?_⟩
    intro b hb
    obtain ⟨i, hi, he⟩ := List.mem_map.mp hb
    rw [← he]
    simp only [Function.comp_apply]
    rw [if_neg (by omega)]

theorem group_capacities_of_lt (N G : Nat) (h : N < G) :
    group_capacities N G = List.replicate N 1 ++ List.replicate (G - N) 0 := by
  unfold group_capacities
  rw [Nat.mod_eq_of_lt h, Nat.div_eq_of_lt h]
  simp only [Nat.zero_add]
  conv_lhs => rw [show G = N + (G - N) by omega]
  rw [map_range_if_lt]

theorem length_filter_isEmpty (plan : List (List Participant)) :
    (plan.filter (fun g => g.isEmpty)).length
      = (plan.map (fun g => g.length)).count 0 := by
  induction plan with
  | nil => rfl
  | cons g gs ih =>
    by_cases h : g.isEmpty
    · have h0 : g.length = 0 := by
        have : g = [] := List.isEmpty_iff.mp h
        rw [this]
        rfl
      rw [List.filter_cons_of_pos h, List.map_cons, List.length_cons, ih,
        List.count_cons, h0]
      simp
    · have h0 : g.length ≠ 0 := by
        intro hc
        apply h
        rw [List.isEmpty_iff]
        exact List.length_eq_zero.mp hc
      rw [List.filter_cons_of_neg h, List.map_cons, List.count_cons, ih]
      simp [h0]
  
theorem length_filter_singleton (plan : List (List Participant)) :
    (plan.filter (fun g => decide (g.length = 1))).length
      = (plan.map (fun g => g.length)).count 1 := by
  induction plan with
  | nil => rfl
  | cons g gs ih =>
    by_cases h : g.length = 1
    · rw [List.filter_cons_of_pos (by simpa using h), List.map_cons, List.length_cons, ih,
        List.count_cons, h]
      simp
    · rw [List.filter_cons_of_neg (by simpa using h), List.map_cons, List.count_cons, ih]
      simp [h]

/-- Trial scoring as the specification words it: per group, 100 × max(0,
company_count − 1) summed over the companies appearing in the group, plus
the tracked count of every unordered pair of distinct members. -/
def claimGroupScore (t : Tracker) (g : List Participant) : Nat :=
  (((g.map (fun p => p.company)).dedup).map
    (fun c => 100 * ((g.map (fun p => p.company)).count c - 1))).sum
  + ((pairsList g).map (fun pr => Tracker.get t (pairKey pr.1.id pr.2.id))).sum

theorem overallScore_eq_claim (t : Tracker) (grouping : List (List Participant)) :
    overallScore t grouping = (grouping.map (fun g => claimGroupScore t g)).sum := by
  unfold overallScore claimGroupScore groupCompanyScore groupPairScore
  apply congrArg
  apply List.map_congr_left
  intro g hg
  rw [sum_map_sub_one_filter, sum_map_mul_hundred, List.map_map]
  rfl

/-! ### Claim theorems -/

/-- Claim C1: for every non-empty participant list and positive group count,
any day plan returned by `create_day_grouping` (each drawn order being a
permutation of the roster) is a true partition: the concatenation of its
groups is a permutation of the input list, so each participant appears in
exactly one group and the union of the groups is the full roster. -/
theorem C1_day_plan_is_partition (participants : List Participant) (num_groups : Nat)
    (t : Tracker) (rand : Nat → List Participant) (plan : List (List Participant))
    (hne : participants ≠ []) (hG : 0 < num_groups)
    (hperm : ∀ i, i < numTrials → (rand i).Perm participants)
    (h : create_day_grouping participants num_groups t rand = some plan) :
    List.Perm plan.flatten participants := by
  obtain ⟨i, hilt, htri, -, -⟩ :=
    create_day_some_spec participants num_groups t rand plan hne h
  unfold trial at htri
  have hflat := runTrial_flatten_perm (group_capacities participants.length num_groups) t
    (rand i) (List.replicate num_groups []) plan htri
  rw [flatten_replicate_nil] at hflat
  simp only [List.nil_append] at hflat
  exact hflat.trans (hperm i hilt)

theorem C1_witness :
    List.Perm ([[(⟨1, 0⟩ : Participant), ⟨2, 0⟩]] : List (List Participant)).flatten
      [⟨1, 0⟩, ⟨2, 0⟩] :=
  C1_day_plan_is_partition [⟨1, 0⟩, ⟨2, 0⟩] 1 [] (fun _ => [⟨1, 0⟩, ⟨2, 0⟩])
    [[⟨1, 0⟩, ⟨2, 0⟩]] (by decide) (by decide) (fun _ _ => List.Perm.refl _) (by decide)

/-- Claim C2: on every successful day assignment each group's final size
equals its capacity — base+1 for the first `total % groups` positions, base
for the rest — the capacities sum to the participant count, and group sizes
are non-increasing in position order. -/
theorem C2_sizes_match_capacities (participants : List Participant) (num_groups : Nat)
    (t : Tracker) (rand : Nat → List Participant) (plan : List (List Participant))
    (hne : participants ≠ []) (hG : 0 < num_groups)
    (hlen : ∀ i, i < numTrials → (rand i).length = participants.length)
    (h : create_day_grouping participants num_groups t rand = some plan) :
    plan.length = num_groups ∧
    (∀ i, i < num_groups → (plan.getD i []).length =
      if i < participants.length % num_groups then participants.length / num_groups + 1
      else participants.length / num_groups) ∧
    (group_capacities participants.length num_groups).sum = participants.length ∧
    (∀ i j, i ≤ j → j < num_groups →
      (plan.getD j []).length ≤ (plan.getD i []).length) := by
  obtain ⟨hplen, hmap⟩ :=
    create_day_plan_sizes participants num_groups t rand plan hne hG hlen h
  have hsize : ∀ i, i < num_groups → (plan.getD i []).length =
      (group_capacities participants.length num_groups).getD i 0 := by
    intro i hi
    have hip : i < plan.length := by omega
    rw [← getD_map_length plan i hip, hmap]
  refine ⟨hplen, ?_, group_capacities_sum _ _ hG, ?_⟩
  · intro i hi
    rw [hsize i hi, group_capacities_getD _ _ _ hi]
  · intro i j hij hj
    rw [hsize j hj, hsize i (Nat.lt_of_le_of_lt hij hj)]
    exact group_capacities_antitone _ _ i j hij hj

theorem C2_witness :
    ([[(⟨1, 0⟩ : Participant), ⟨2, 0⟩]] : List (List Participant)).length = 1 ∧
    (∀ i, i < 1 → ((([[(⟨1, 0⟩ : Participant), ⟨2, 0⟩]] : List (List Participant))).getD i []).length =
      if i < 2 % 1 then 2 / 1 + 1 else 2 / 1) ∧
    (group_capacities 2 1).sum = 2 ∧
    (∀ i j, i ≤ j → j < 1 →
      ((([[(⟨1, 0⟩ : Participant), ⟨2, 0⟩]] : List (List Participant))).getD j []).length ≤
        ((([[(⟨1, 0⟩ : Participant), ⟨2, 0⟩]] : List (List Participant))).getD i []).length) :=
  C2_sizes_match_capacities [⟨1, 0⟩, ⟨2, 0⟩] 1 [] (fun _ => [⟨1, 0⟩, ⟨2, 0⟩])
    [[⟨1, 0⟩, ⟨2, 0⟩]] (by decide) (by decide) (fun _ _ => rfl) (by decide)

/-- Claim C3: the day assigner runs exactly 100 trials, scores each
successful trial as the spec's per-group formula (100 × max(0,
company_count − 1) per company plus the tracked count of each unordered
member pair), returns the earliest trial attaining the strictly lowest
overall score, and fails exactly when all trials fail. -/
theorem C3_trials_scoring_selection (participants : List Participant) (num_groups : Nat)
    (t : Tracker) (rand : Nat → List Participant) (hne : participants ≠ []) :
    numTrials = 100 ∧
    (∀ grouping : List (List Participant),
      overallScore t grouping = (grouping.map (fun g => claimGroupScore t g)).sum) ∧
    (create_day_grouping participants num_groups t rand = none ↔
      ∀ i, i < 100 →
        trial (group_capacities participants.length num_groups) num_groups t (rand i) = none) ∧
    (∀ plan, create_day_grouping participants num_groups t rand = some plan →
      ∃ i, i < 100 ∧
        trial (group_capacities participants.length num_groups) num_groups t (rand i)
          = some plan ∧
        (∀ j, j < 100 → ∀ g2,
          trial (group_capacities participants.length num_groups) num_groups t (rand j)
            = some g2 → overallScore t plan ≤ overallScore t g2) ∧
        (∀ j, j < i → ∀ g2,
          trial (group_capacities participants.length num_groups) num_groups t (rand j)
            = some g2 → overallScore t plan < overallScore t g2)) := by
  refine ⟨rfl, fun grouping => overallScore_eq_claim t grouping, ?_, ?_⟩
  · have := create_day_none_iff participants num_groups t rand hne
    simpa [numTrials] using this
  · intro plan h
    obtain ⟨i, hilt, h1, h2, h3⟩ :=
      create_day_some_spec participants num_groups t rand plan hne h
    refine ⟨i, by simpa [numTrials] using hilt, h1, ?_, h3⟩
    intro j hj
    exact h2 j (by simpa [numTrials] using hj)

theorem C3_witness :
    create_day_grouping [(⟨1, 0⟩ : Participant)] 1 [] (fun _ => [⟨1, 0⟩]) = none ↔
      ∀ i, i < 100 → trial (group_capacities 1 1) 1 [] [(⟨1, 0⟩ : Participant)] = none :=
  (C3_trials_scoring_selection [⟨1, 0⟩] 1 [] (fun _ => [⟨1, 0⟩]) (by decide)).2.2.1

/-- Claim C4: within a trial each participant goes to the eligible group
(strictly below capacity) of minimal placement score — 100 per
same-company member plus the tracked co-occurrence with each member — with
ties broken towards the earliest group position. -/
theorem C4_greedy_placement_minimal (caps : List Nat) (t : Tracker)
    (grouping : List (List Participant)) (p : Participant)
    (h : available_groups_indices grouping caps ≠ []) :
    ∃ i, i ∈ available_groups_indices grouping caps ∧
      assignOne caps t grouping p = some (grouping.set i (grouping.getD i [] ++ [p])) ∧
      (∀ j ∈ available_groups_indices grouping caps,
        placementScore t p (grouping.getD i []) ≤ placementScore t p (grouping.getD j [])) ∧
      (∀ j ∈ available_groups_indices grouping caps, j < i →
        placementScore t p (grouping.getD i []) < placementScore t p (grouping.getD j [])) :=
  assignOne_spec caps t grouping p h

theorem C4_witness :
    ∃ i, i ∈ available_groups_indices [[], []] [1, 1] ∧
      assignOne [1, 1] [] [[], []] ⟨1, 0⟩ =
        some (([[], []] : List (List Participant)).set i
          (([[], []] : List (List Participant)).getD i [] ++ [⟨1, 0⟩])) ∧
      (∀ j ∈ available_groups_indices [[], []] [1, 1],
        placementScore [] ⟨1, 0⟩ (([[], []] : List (List Participant)).getD i []) ≤
          placementScore [] ⟨1, 0⟩ (([[], []] : List (List Participant)).getD j [])) ∧
      (∀ j ∈ available_groups_indices [[], []] [1, 1], j < i →
        placementScore [] ⟨1, 0⟩ (([[], []] : List (List Participant)).getD i []) <
          placementScore [] ⟨1, 0⟩ (([[], []] : List (List Participant)).getD j [])) :=
  C4_greedy_placement_minimal [1, 1] [] [[], []] ⟨1, 0⟩ (by decide)

/-- Claim C5: after a successful multi-day run the tracker's total equals
the sum over all days and groups of C(group size, 2), and recording a group
with distinct member ids increments each listed member pair's entry by
exactly one. -/
theorem C5_tracker_total_increments (participants : List Participant)
    (num_days num_groups : Nat) (rand : Nat → Nat → List Participant)
    (plans : List (List (List Participant))) (tF : Tracker)
    (h : generate_all_days participants num_days num_groups rand = Except.ok (plans, tF)) :
    tF.sumValues =
      (plans.map (fun dayplan => (dayplan.map (fun g => g.length.choose 2)).sum)).sum ∧
    ∀ (t2 : Tracker) (g : List Participant) (pr : Participant × Participant),
      (g.map Participant.id).Nodup → pr ∈ pairsList g →
      (record_group t2 g).get (pairKey pr.1.id pr.2.id)
        = t2.get (pairKey pr.1.id pr.2.id) + 1 := by
  refine ⟨generate_all_days_sumValues participants num_days num_groups rand plans tF h, ?_⟩
  intro t2 g pr hnd hpr
  rw [record_group_get, pairKeys_count_eq_one hnd hpr]

theorem C5_witness :
    Tracker.sumValues [((1, 2), 1)] =
      (([[[(⟨1, 0⟩ : Participant), ⟨2, 1⟩]]] : List (List (List Participant))).map
        (fun dayplan => (dayplan.map (fun g => g.length.choose 2)).sum)).sum :=
  (C5_tracker_total_increments [⟨1, 0⟩, ⟨2, 1⟩] 1 1 (fun _ _ => [⟨1, 0⟩, ⟨2, 1⟩])
    [[[⟨1, 0⟩, ⟨2, 1⟩]]] [((1, 2), 1)] rfl).1

/-- Claim C6: the tracker read canonicalizes its pair (smaller id first), so
reads are symmetric in the two participants; counts are non-negative; and
recording a day's groups never decreases any pair's count, so counts are
non-decreasing from one day to the next. -/
theorem C6_symmetric_monotone :
    (∀ (t : Tracker) (a b : Nat), t.get (pairKey a b) = t.get (pairKey b a)) ∧
    (∀ a b : Nat, a ≤ b → pairKey a b = (a, b)) ∧
    (∀ (t : Tracker) (a b : Nat), 0 ≤ t.get (pairKey a b)) ∧
    (∀ (t : Tracker) (grouping : List (List Participant)) (a b : Nat),
      t.get (pairKey a b) ≤ (record_day t grouping).get (pairKey a b)) := by
  refine ⟨?_, ?_, ?_, ?_⟩
  · intro t a b
    rw [pairKey_comm]
  · intro a b h
    exact pairKey_of_le h
  · intro t a b
    exact Nat.zero_le _
  · intro t grouping a b
    exact record_day_get_le t grouping (pairKey a b)

theorem C6_witness : pairKey 1 2 = (1, 2) :=
  C6_symmetric_monotone.2.1 1 2 (by decide)

/-- Claim C7: when day `k` (0-based) is reached with state `(acc, t)` and
its assignment comes back falsy, the planner aborts: it returns the
1-based day index `k + 1` as the failure and never a plan list. -/
theorem C7_failure_aborts (participants : List Participant) (num_groups : Nat)
    (rand : Nat → Nat → List Participant) (n k : Nat)
    (acc : List (List (List Participant))) (t : Tracker)
    (hk : k < n)
    (hs : planner_state participants num_groups rand k = some (acc, t))
    (hfail : create_day_grouping participants num_groups t (rand k) = none ∨
      create_day_grouping participants num_groups t (rand k) = some []) :
    generate_all_days participants n num_groups rand = Except.error (k + 1) ∧
    ∀ plans tF, generate_all_days participants n num_groups rand ≠ Except.ok (plans, tF) := by
  have he := generate_all_days_error participants num_groups rand n k acc t hk hs hfail
  refine ⟨he, ?_⟩
  intro plans tF hok
  rw [he] at hok
  cases hok

theorem C7_witness :
    generate_all_days [] 1 1 (fun _ _ => []) = Except.error 1 :=
  (C7_failure_aborts [] 1 (fun _ _ => []) 1 0 [] [] (by decide) rfl
    (Or.inr (by decide))).1

/-- Claim C8: with a non-empty roster and positive group count the
capacity-exhaustion branch is unreachable — capacities sum to the roster
size, so every trial completes and the day assigner never fails. -/
theorem C8_capacity_exhaustion_unreachable (participants : List Participant)
    (num_groups : Nat) (t : Tracker) (rand : Nat → List Participant)
    (hne : participants ≠ []) (hG : 0 < num_groups)
    (hlen : ∀ i, i < numTrials → (rand i).length = participants.length) :
    (∀ i, i < numTrials →
      trial (group_capacities participants.length num_groups) num_groups t (rand i) ≠ none) ∧
    create_day_grouping participants num_groups t rand ≠ none := by
  have htr : ∀ i, i < numTrials → ∃ g,
      trial (group_capacities participants.length num_groups) num_groups t (rand i)
        = some g := by
    intro i hi
    exact trial_total participants.length num_groups t (rand i) hG (hlen i hi)
  refine ⟨?_, ?_⟩
  · intro i hi hnone
    obtain ⟨g, hg⟩ := htr i hi
    rw [hnone] at hg
    cases hg
  · intro hnone
    rw [create_day_none_iff participants num_groups t rand hne] at hnone
    obtain ⟨g, hg⟩ := htr 0 (by decide)
    rw [hnone 0 (by decide)] at hg
    cases hg

theorem C8_witness :
    create_day_grouping [(⟨1, 0⟩ : Participant)] 1 [] (fun _ => [⟨1, 0⟩]) ≠ none :=
  (C8_capacity_exhaustion_unreachable [⟨1, 0⟩] 1 [] (fun _ => [⟨1, 0⟩])
    (by decide) (by decide) (fun _ _ => rfl)).2

/-- Claim C9: the pipeline is deterministic given its randomness: equal
company counts, day count, group count and an identical stream of drawn
permutations give identical plans and final tracker. -/
theorem C9_deterministic (counts1 counts2 : List Nat) (n1 n2 G1 G2 : Nat)
    (rand1 rand2 : Nat → Nat → List Participant)
    (hc : counts1 = counts2) (hn : n1 = n2) (hG : G1 = G2)
    (hr : ∀ d i, rand1 d i = rand2 d i) :
    generate_all_days (generate_participant_list counts1) n1 G1 rand1
      = generate_all_days (generate_participant_list counts2) n2 G2 rand2 := by
  subst hc
  subst hn
  subst hG
  have hfun : rand1 = rand2 := funext (fun d => funext (fun i => hr d i))
  rw [hfun]

theorem C9_witness :
    generate_all_days (generate_participant_list [1]) 1 1 (fun _ _ => [])
      = generate_all_days (generate_participant_list [1]) 1 1 (fun _ _ => []) :=
  C9_deterministic [1] [1] 1 1 1 1 (fun _ _ => []) (fun _ _ => [])
    rfl rfl rfl (fun _ _ => rfl)

/-- Claim C10: with more groups than participants the day assigner still
succeeds, returning exactly `G` groups of which `G − N` are empty (their
capacity is 0) and `N` hold exactly one participant. -/
theorem C10_more_groups_than_participants (participants : List Participant)
    (num_groups : Nat) (t : Tracker) (rand : Nat → List Participant)
    (hne : participants ≠ []) (hNG : participants.length < num_groups)
    (hlen : ∀ i, i < numTrials → (rand i).length = participants.length) :
    ∃ plan, create_day_grouping participants num_groups t rand = some plan ∧
      plan.length = num_groups ∧
      (plan.filter (fun g => g.isEmpty)).length = num_groups - participants.length ∧
      (plan.filter (fun g => decide (g.length = 1))).length = participants.length := by
  have hG : 0 < num_groups := Nat.lt_of_le_of_lt (Nat.zero_le _) hNG
  cases hcr : create_day_grouping participants num_groups t rand with
  | none =>
    exfalso
    rw [create_day_none_iff participants num_groups t rand hne] at hcr
    obtain ⟨g, hg⟩ :=
      trial_total participants.length num_groups t (rand 0) hG (hlen 0 (by decide))
    rw [hcr 0 (by decide)] at hg
    cases hg
  | some plan =>
    obtain ⟨hplen, hmap⟩ :=
      create_day_plan_sizes participants num_groups t rand plan hne hG hlen hcr
    rw [group_capacities_of_lt participants.length num_groups hNG] at hmap
    refine ⟨plan, rfl, hplen, ?_, ?_⟩
    · rw [length_filter_isEmpty, hmap, List.count_append, List.count_replicate,
        List.count_replicate]
      simp
    · rw [length_filter_singleton, hmap, List.count_append, List.count_replicate,
        List.count_replicate]
      simp

theorem C10_witness :
    ∃ plan, create_day_grouping [(⟨1, 0⟩ : Participant)] 2 [] (fun _ => [⟨1, 0⟩])
        = some plan ∧
      plan.length = 2 ∧
      (plan.filter (fun g => g.isEmpty)).length = 1 ∧
      (plan.filter (fun g => decide (g.length = 1))).length = 1 :=
  C10_more_groups_than_participants [⟨1, 0⟩] 2 [] (fun _ => [⟨1, 0⟩])
    (by decide) (by decide) (fun _ _ => rfl)
